import Mathlib

/-!
# Verification of the manifest transformation and package-synthesis engine

Shallow embedding of the core of the `krezh/charts` updater:

* `DeepMerge` (src/internal/common/util.go),
* the version resolver `takeNewerVersion` (src/cmd/updater/main.go, github part),
* the rule engine `applyModifications` / `ParametrizeManifests` / `FilterManifests`
  (src/internal/packager/packager.go),
* the package synthesizer `createTemplates` (src/cmd/updater/main.go, packager part).

Go `map[string]any` YAML values are embedded as the inductive type `Val`;
a Go map is represented as an association list with (by invariant) unique
keys.  External collaborators (the yq expression evaluator, the regexp
engine for user-supplied kind patterns, the YAML serializer) are taken as
explicit function parameters, following the repository's own design notes;
the two fixed regular expressions baked into the source
(`common.ValuesRegex` and the quote-stripping regex in `createTemplates`)
are implemented concretely.
-/

/-- A YAML-typed value, the embedding of Go's `any` as produced by
`yaml.Unmarshal` into `map[string]any` trees (scalars, sequences, mappings;
floats do not occur in the claims and are omitted). -/
inductive Val where
  | null : Val
  | bool : Bool → Val
  | int : Int → Val
  | str : String → Val
  | seq : List Val → Val
  | map : List (String × Val) → Val

/-- A document / Go `map[string]any`: an association list from string keys
to values.  Go maps have unique keys; theorems that depend on uniqueness
take it as an explicit hypothesis (`keysNodup`). -/
abbrev Doc := List (String × Val)

/-- Go map indexing `m[k]` (comma-ok form): the value bound to `k`, if any. -/
def alookup {α : Type} : List (String × α) → String → Option α
  | [], _ => none
  | (k', v) :: rest, k => if k' = k then some v else alookup rest k

/-- Go map assignment `m[k] = v`: replace the binding of `k`
(or append it if absent). -/
def aset {α : Type} : List (String × α) → String → α → List (String × α)
  | [], k, v => [(k, v)]
  | (k', v') :: rest, k, v =>
    if k' = k then (k, v) :: rest else (k', v') :: aset rest k v

/-- `true` iff the keys of the association list are pairwise distinct
(always the case for a Go map). -/
def keysNodup {α : Type} : List (String × α) → Bool
  | [] => true
  | (k, _) :: rest => !(rest.any (fun kv => kv.1 == k)) && keysNodup rest

/-! `common.DeepMerge` (src/internal/common/util.go:97-119).

```go
func DeepMerge(first *map[string]any, second *map[string]any) *map[string]any {
    out := make(map[string]any)
    for k, v1 := range *first { out[k] = v1 }
    for k, v2 := range *second {
        if v1, ok := out[k]; ok {
            mapV1, ok1 := v1.(map[string]any)
            mapV2, ok2 := v2.(map[string]any)
            if ok1 && ok2 { out[k] = *DeepMerge(&mapV1, &mapV2) }
            else { out[k] = v2 }  // overwrite with second, regardless if list or scalar
        } else { out[k] = v2 }
    }
    return &out
}
```

`out` starts as a copy of `first`; the association list fixes one iteration
order for `second`, which is irrelevant at the map level because a Go map's
keys are distinct.  The body of the second loop is split into `mergeVals`
(the `ok1 && ok2` type-switch: recursive merge when both values are
mappings, otherwise "overwrite with second, regardless if list or scalar")
and `deepMerge` (the loop itself). -/
mutual

def mergeVals : Val → Val → Val
  | Val.map m1, Val.map m2 => Val.map (deepMerge m1 m2)
  | _, v2 => v2
termination_by _ v2 => sizeOf v2

def deepMerge : Doc → Doc → Doc
  | out, [] => out
  | out, (k, v2) :: rest =>
    match alookup out k with
    | some v1 => deepMerge (aset out k (mergeVals v1 v2)) rest
    | none => deepMerge (out ++ [(k, v2)]) rest
termination_by _ b => sizeOf b
decreasing_by
  all_goals simp_wf
  all_goals omega

end

mutual

/-- Recursive well-formedness of a value: every mapping in the tree has
pairwise-distinct keys.  Every value decoded from YAML into Go maps
satisfies this. -/
def wfVal : Val → Bool
  | Val.null => true
  | Val.bool _ => true
  | Val.int _ => true
  | Val.str _ => true
  | Val.seq xs => wfList xs
  | Val.map m => keysNodup m && wfPairs m

/-- All values in a list are well-formed. -/
def wfList : List Val → Bool
  | [] => true
  | v :: rest => wfVal v && wfList rest

/-- All values of an association list are well-formed. -/
def wfPairs : List (String × Val) → Bool
  | [] => true
  | (_, v) :: rest => wfVal v && wfPairs rest

end

/-- The value a deep merge stores at a key that is present in the second map:
the recursive merge when both sides hold mappings, otherwise the second
side's value. -/
def mergedValue (oldv : Option Val) (newv : Val) : Val :=
  match oldv with
  | some v1 => mergeVals v1 newv
  | none => newv

theorem alookup_aset_self {α : Type} (m : List (String × α)) (k : String) (v : α) :
    alookup (aset m k v) k = some v := by
  induction m with
  | nil => simp [aset, alookup]
  | cons kv rest ih =>
    obtain ⟨k', v'⟩ := kv
    by_cases h : k' = k
    · simp [aset, h, alookup]
    · simp [aset, h, alookup, ih]

theorem alookup_aset_ne {α : Type} (m : List (String × α)) (k j : String) (v : α)
    (h : j ≠ k) : alookup (aset m k v) j = alookup m j := by
  induction m with
  | nil => simp [aset, alookup, Ne.symm h]
  | cons kv rest ih =>
    obtain ⟨k', v'⟩ := kv
    by_cases hk : k' = k
    · subst hk
      simp [aset, alookup, Ne.symm h]
    · simp only [aset, if_neg hk]
      by_cases hj : k' = j
      · simp [alookup, hj]
      · simp [alookup, hj, ih]

theorem alookup_append_of_some {α : Type} (m1 m2 : List (String × α)) (k : String)
    (v : α) (h : alookup m1 k = some v) : alookup (m1 ++ m2) k = some v := by
  induction m1 with
  | nil => simp [alookup] at h
  | cons kv rest ih =>
    obtain ⟨k', v'⟩ := kv
    by_cases hk : k' = k
    · simp only [alookup, if_pos hk] at h
      simp [alookup, hk, h]
    · simp only [alookup, if_neg hk] at h
      simp [alookup, hk, ih h]

theorem alookup_append_of_none {α : Type} (m1 m2 : List (String × α)) (k : String)
    (h : alookup m1 k = none) : alookup (m1 ++ m2) k = alookup m2 k := by
  induction m1 with
  | nil => simp
  | cons kv rest ih =>
    obtain ⟨k', v'⟩ := kv
    by_cases hk : k' = k
    · simp [alookup, if_pos hk] at h
    · simp only [alookup, if_neg hk] at h
      simp [alookup, hk, ih h]

theorem alookup_eq_none_of_any_false {α : Type} (m : List (String × α)) (k : String)
    (h : (m.any (fun p => p.1 == k)) = false) : alookup m k = none := by
  induction m with
  | nil => rfl
  | cons kv rest ih =>
    obtain ⟨k', v'⟩ := kv
    simp only [List.any_cons, Bool.or_eq_false_iff, beq_eq_false_iff_ne, ne_eq] at h
    obtain ⟨h1, h2⟩ := h
    simp only [alookup, if_neg h1]
    exact ih (by simpa using h2)

/-- One iteration of `DeepMerge`'s second loop: how `out` changes for the
pair `(k, v2)` taken from the second map. -/
def deepMergeStep (out : Doc) (k : String) (v2 : Val) : Doc :=
  match alookup out k with
  | some v1 => aset out k (mergeVals v1 v2)
  | none => out ++ [(k, v2)]

theorem deepMerge_cons (out : Doc) (k : String) (v2 : Val) (rest : Doc) :
    deepMerge out ((k, v2) :: rest) = deepMerge (deepMergeStep out k v2) rest := by
  cases halo : alookup out k <;> simp [deepMerge, deepMergeStep, halo]

theorem deepMergeStep_alookup_self (out : Doc) (k : String) (v2 : Val) :
    alookup (deepMergeStep out k v2) k = some (mergedValue (alookup out k) v2) := by
  cases halo : alookup out k with
  | none =>
    have h1 : alookup (out ++ [(k, v2)]) k = some v2 := by
      rw [alookup_append_of_none _ _ _ halo]; simp [alookup]
    simp [deepMergeStep, halo, mergedValue, h1]
  | some v1 =>
    simp [deepMergeStep, halo, mergedValue, alookup_aset_self]

theorem deepMergeStep_alookup_ne (out : Doc) (k j : String) (v2 : Val) (h : j ≠ k) :
    alookup (deepMergeStep out k v2) j = alookup out j := by
  cases halo : alookup out k with
  | none =>
    have h1 : alookup (out ++ [(k, v2)]) j = alookup out j := by
      cases haj : alookup out j with
      | some v => exact alookup_append_of_some _ _ _ _ haj
      | none => rw [alookup_append_of_none _ _ _ haj]; simp [alookup, Ne.symm h]
    simp [deepMergeStep, halo, h1]
  | some v1 =>
    simp [deepMergeStep, halo, alookup_aset_ne _ _ _ _ h]

/-- Pointwise characterization of `deepMerge`, by induction over the second
map: a key present in the second map ends up bound to `mergedValue`, a key
absent from it keeps the first map's binding. -/
theorem deepMerge_alookup (b : Doc) : ∀ (out : Doc) (k : String), keysNodup b = true →
    alookup (deepMerge out b) k =
      match alookup b k with
      | some v2 => some (mergedValue (alookup out k) v2)
      | none => alookup out k := by
  induction b with
  | nil =>
    intro out k _
    simp [deepMerge, alookup]
  | cons kv rest ih =>
    obtain ⟨k', v2⟩ := kv
    intro out k hnd
    simp only [keysNodup, Bool.and_eq_true, Bool.not_eq_true'] at hnd
    obtain ⟨hany, hrest⟩ := hnd
    have hnone : alookup rest k' = none := alookup_eq_none_of_any_false _ _ hany
    rw [deepMerge_cons, ih _ k hrest]
    by_cases hk : k' = k
    · subst hk
      rw [hnone, deepMergeStep_alookup_self]
      simp [alookup]
    · rw [deepMergeStep_alookup_ne _ _ _ _ (fun hh => hk hh.symm)]
      simp [alookup, hk]

theorem aset_of_alookup_eq {α : Type} (m : List (String × α)) (k : String) (v : α)
    (h : alookup m k = some v) : aset m k v = m := by
  induction m with
  | nil => simp [alookup] at h
  | cons kv rest ih =>
    obtain ⟨k', v'⟩ := kv
    by_cases hk : k' = k
    · subst hk
      have h' : v' = v := by simpa [alookup] using h
      subst h'
      simp [aset]
    · simp only [alookup, if_neg hk] at h
      simp [aset, hk, ih h]

/-- In a map with pairwise-distinct keys, every stored pair is found by
lookup (Go maps satisfy this by construction). -/
theorem alookup_mem_of_nodup {α : Type} (m : List (String × α))
    (hm : keysNodup m = true) : ∀ kv ∈ m, alookup m kv.1 = some kv.2 := by
  induction m with
  | nil => intro kv h; cases h
  | cons kv0 rest ih =>
    obtain ⟨k0, v0⟩ := kv0
    simp only [keysNodup, Bool.and_eq_true, Bool.not_eq_true'] at hm
    obtain ⟨hany, hrest⟩ := hm
    intro kv hmem
    rcases List.mem_cons.mp hmem with h | h
    · subst h; simp [alookup]
    · have hne : k0 ≠ kv.1 := by
        intro hh
        have htrue : rest.any (fun p => p.1 == k0) = true :=
          List.any_eq_true.mpr ⟨kv, h, by simp [hh]⟩
        rw [htrue] at hany
        cases hany
      simp [alookup, hne, ih hrest kv h]

theorem wfPairs_mem (m : List (String × Val)) (hm : wfPairs m = true) :
    ∀ kv ∈ m, wfVal kv.2 = true := by
  induction m with
  | nil => intro kv h; cases h
  | cons kv0 rest ih =>
    obtain ⟨k0, v0⟩ := kv0
    simp only [wfPairs, Bool.and_eq_true] at hm
    intro kv hmem
    rcases List.mem_cons.mp hmem with h | h
    · subst h; exact hm.1
    · exact ih hm.2 kv h

theorem mergeVals_eq_snd (v1 v2 : Val)
    (h : ∀ m1 m2, ¬(v1 = Val.map m1 ∧ v2 = Val.map m2)) : mergeVals v1 v2 = v2 := by
  cases v1 with
  | map m1 =>
    cases v2 with
    | map m2 => exact absurd ⟨rfl, rfl⟩ (h m1 m2)
    | null => simp [mergeVals]
    | bool b => simp [mergeVals]
    | int i => simp [mergeVals]
    | str s => simp [mergeVals]
    | seq xs => simp [mergeVals]
  | null => simp [mergeVals]
  | bool b => simp [mergeVals]
  | int i => simp [mergeVals]
  | str s => simp [mergeVals]
  | seq xs => simp [mergeVals]

/-- Merging a well-formed map into itself changes nothing: each iteration
of the second loop rewrites a key to the value it already holds. -/
theorem deepMerge_self_aux : ∀ (n : Nat) (b out : Doc), sizeOf b ≤ n →
    (∀ kv ∈ b, alookup out kv.1 = some kv.2 ∧ wfVal kv.2 = true) →
    deepMerge out b = out := by
  intro n
  induction n with
  | zero =>
    intro b out hs _
    cases b with
    | nil => simp [deepMerge]
    | cons kv rest => simp at hs
  | succ n ih =>
    intro b out hs hmem
    cases b with
    | nil => simp [deepMerge]
    | cons kv rest =>
      obtain ⟨k, v⟩ := kv
      obtain ⟨hlook, hwf⟩ := hmem (k, v) (List.mem_cons_self _ _)
      have hmem' : ∀ kv ∈ rest, alookup out kv.1 = some kv.2 ∧ wfVal kv.2 = true :=
        fun kv h => hmem kv (List.mem_cons_of_mem _ h)
      have hmv : mergeVals v v = v := by
        cases v with
        | map m =>
          simp only [wfVal, Bool.and_eq_true] at hwf
          have hsz : sizeOf m ≤ n := by
            simp only [List.cons.sizeOf_spec, Prod.mk.sizeOf_spec,
              Val.map.sizeOf_spec] at hs
            omega
          have hmm : deepMerge m m = m := by
            apply ih m m hsz
            intro kv hk
            exact ⟨alookup_mem_of_nodup m hwf.1 kv hk, wfPairs_mem m hwf.2 kv hk⟩
          simp [mergeVals, hmm]
        | null => simp [mergeVals]
        | bool b => simp [mergeVals]
        | int i => simp [mergeVals]
        | str s => simp [mergeVals]
        | seq xs => simp [mergeVals]
      have hstep : deepMergeStep out k v = out := by
        simp only [deepMergeStep, hlook]
        rw [hmv, aset_of_alookup_eq out k v hlook]
      have hsz' : sizeOf rest ≤ n := by
        simp only [List.cons.sizeOf_spec, Prod.mk.sizeOf_spec] at hs
        omega
      rw [deepMerge_cons, hstep]
      exact ih rest out hsz' hmem'

/-- Merging a well-formed map into itself is the identity. -/
theorem deepMerge_self (a : Doc) (h : wfVal (Val.map a) = true) :
    deepMerge a a = a := by
  simp only [wfVal, Bool.and_eq_true] at h
  apply deepMerge_self_aux (sizeOf a) a a (Nat.le_refl _)
  intro kv hk
  exact ⟨alookup_mem_of_nodup a h.1 kv hk, wfPairs_mem a h.2 kv hk⟩

/-- C1: for every pair of mappings `a` and `b` (a Go map's keys are
distinct, hence the `keysNodup` hypothesis on `b`, the map whose iteration
drives the merge), `DeepMerge(a, b)` maps every key `k` of `b` to
`DeepMerge(a[k], b[k])` when both `a[k]` and `b[k]` are mappings and to
`b[k]` otherwise (`b` wins on every conflict, with no type-compatibility
error: `deepMerge` is total), and preserves every key present only in `a`
unchanged. -/
theorem deepMerge_pointwise_spec (a b : Doc) (k : String) (hb : keysNodup b = true) :
    (∀ m1 m2, alookup a k = some (Val.map m1) → alookup b k = some (Val.map m2) →
      alookup (deepMerge a b) k = some (Val.map (deepMerge m1 m2))) ∧
    (∀ v2, alookup b k = some v2 →
      (∀ m1 m2, ¬(alookup a k = some (Val.map m1) ∧ v2 = Val.map m2)) →
      alookup (deepMerge a b) k = some v2) ∧
    (alookup b k = none → alookup (deepMerge a b) k = alookup a k) := by
  refine ⟨?_, ?_, ?_⟩
  · intro m1 m2 ha hbk
    rw [deepMerge_alookup b a k hb, hbk, ha]
    simp [mergedValue, mergeVals]
  · intro v2 hbk hnot
    rw [deepMerge_alookup b a k hb, hbk]
    cases ha : alookup a k with
    | none => simp [mergedValue]
    | some v1 =>
      simp only [mergedValue, Option.some.injEq]
      exact mergeVals_eq_snd v1 v2 (fun m1 m2 hp => hnot m1 m2 ⟨by rw [ha, hp.1], hp.2⟩)
  · intro hbk
    rw [deepMerge_alookup b a k hb, hbk]

/-- C1 witness: the theorem evaluated at a concrete pair of mappings with a
shared mapping-valued key `"m"`. -/
theorem deepMerge_pointwise_spec_witness :
    keysNodup [("m", Val.map [("q", Val.int 3)]), ("y", Val.str "b")] = true ∧
    alookup (deepMerge [("x", Val.int 1), ("m", Val.map [("p", Val.int 1)])]
        [("m", Val.map [("q", Val.int 3)]), ("y", Val.str "b")]) "m"
      = some (Val.map (deepMerge [("p", Val.int 1)] [("q", Val.int 3)])) := by
  refine ⟨by rfl, ?_⟩
  exact (deepMerge_pointwise_spec
    [("x", Val.int 1), ("m", Val.map [("p", Val.int 1)])]
    [("m", Val.map [("q", Val.int 3)]), ("y", Val.str "b")]
    "m" (by rfl)).1 [("p", Val.int 1)] [("q", Val.int 3)] (by rfl) (by rfl)

/-- C9: `DeepMerge` is idempotent on every well-formed mapping
(`merge(a, a) == a`), and right-biased at every key whose values are not
both mappings (`merge(a, b)[k] == b[k]`). -/
theorem deepMerge_idem_right_biased :
    (∀ a : Doc, wfVal (Val.map a) = true → deepMerge a a = a) ∧
    (∀ (a b : Doc) (k : String) (v2 : Val), keysNodup b = true →
      alookup b k = some v2 →
      (∀ m1 m2, ¬(alookup a k = some (Val.map m1) ∧ v2 = Val.map m2)) →
      alookup (deepMerge a b) k = some v2) := by
  constructor
  · exact deepMerge_self
  · intro a b k v2 hb hbk hnot
    rw [deepMerge_alookup b a k hb, hbk]
    cases ha : alookup a k with
    | none => simp [mergedValue]
    | some v1 =>
      simp only [mergedValue, Option.some.injEq]
      exact mergeVals_eq_snd v1 v2 (fun m1 m2 hp => hnot m1 m2 ⟨by rw [ha, hp.1], hp.2⟩)

/-- C9 witness: idempotence evaluated on a concrete nested mapping. -/
theorem deepMerge_idem_right_biased_witness :
    wfVal (Val.map [("a", Val.int 1), ("b", Val.map [("c", Val.str "s")])]) = true ∧
    deepMerge [("a", Val.int 1), ("b", Val.map [("c", Val.str "s")])]
        [("a", Val.int 1), ("b", Val.map [("c", Val.str "s")])]
      = [("a", Val.int 1), ("b", Val.map [("c", Val.str "s")])] :=
  ⟨by rfl, deepMerge_idem_right_biased.1
    [("a", Val.int 1), ("b", Val.map [("c", Val.str "s")])] (by rfl)⟩

/-- A parsed semantic version as represented by the external
Masterminds/semver v3 library: numeric `major.minor.patch` plus the
prerelease and build-metadata strings.  The library's `String()` method
reconstructs the version from exactly these fields, so two values that
differ only in `meta` are observationally different, while `Compare`
ignores `meta`. -/
structure SemVer where
  major : Nat
  minor : Nat
  patch : Nat
  pre : String
  meta : String
deriving DecidableEq, Repr

/-- A character allowed in prerelease/metadata segments: `[0-9A-Za-z-]`. -/
def isAlnumHyphen (c : Char) : Bool :=
  c.isAlpha || c.isDigit || c = '-'

/-- Split a character list at every occurrence of the separator, like Go's
`strings.Split` restricted to one-character separators (the empty input
yields one empty segment). -/
def splitOnChar (c : Char) : List Char → List (List Char)
  | [] => [[]]
  | x :: rest =>
    if x = c then [] :: splitOnChar c rest
    else
      match splitOnChar c rest with
      | [] => [[x]]
      | seg :: segs => (x :: seg) :: segs

/-- Re-join segments with a separator character (inverse of `splitOnChar`),
like Go's `strings.Join`. -/
def joinWith (sep : Char) : List (List Char) → List Char
  | [] => []
  | [x] => x
  | x :: rest => x ++ sep :: joinWith sep rest

/-- `strconv.ParseUint` on a digit string: all characters must be decimal
digits and there must be at least one. -/
def parseDigits (cs : List Char) : Option Nat :=
  match cs with
  | [] => none
  | _ =>
    cs.foldl
      (fun acc c =>
        match acc with
        | none => none
        | some n => if c.isDigit then some (n * 10 + (c.toNat - 48)) else none)
      (some 0)

/-- A valid prerelease segment: nonempty, alphanumeric/hyphen, and a purely
numeric segment must not have a leading zero. -/
def validPreSegment : List Char → Bool
  | [] => false
  | c :: rest =>
    (c :: rest).all isAlnumHyphen &&
      (!((c :: rest).all Char.isDigit) || rest.isEmpty || c != '0')

/-- A valid build-metadata segment: nonempty, alphanumeric/hyphen. -/
def validMetaSegment (cs : List Char) : Bool :=
  !cs.isEmpty && cs.all isAlnumHyphen

/-- Modelled from the external Masterminds/semver v3 `NewVersion` contract
(the library used by `takeNewerVersion`): after the optional `v` and the
metadata split, parse one to three dot-separated numeric parts (missing
minor/patch default to zero) and an optional `-`-introduced prerelease. -/
def parseSemverCore (coreAndPre : List Char) (meta : List Char) : Option SemVer :=
  match splitOnChar '-' coreAndPre with
  | [] => none
  | core :: preParts =>
    let pre := joinWith '-' preParts
    if preParts ≠ [] && !((splitOnChar '.' pre).all validPreSegment) then none
    else
      match splitOnChar '.' core with
      | [p1] =>
        match parseDigits p1 with
        | some n1 => some ⟨n1, 0, 0, ⟨pre⟩, ⟨meta⟩⟩
        | none => none
      | [p1, p2] =>
        match parseDigits p1, parseDigits p2 with
        | some n1, some n2 => some ⟨n1, n2, 0, ⟨pre⟩, ⟨meta⟩⟩
        | _, _ => none
      | [p1, p2, p3] =>
        match parseDigits p1, parseDigits p2, parseDigits p3 with
        | some n1, some n2, some n3 => some ⟨n1, n2, n3, ⟨pre⟩, ⟨meta⟩⟩
        | _, _, _ => none
      | _ => none

/-- Modelled from the external Masterminds/semver v3 `NewVersion`: an
optional leading `v`, an optional `+`-introduced build metadata, then the
numeric core and optional prerelease.  Inputs such as `"not-semver"` are
rejected. -/
def parseSemver (s : String) : Option SemVer :=
  let cs :=
    match s.data with
    | 'v' :: rest => rest
    | cs => cs
  match splitOnChar '+' cs with
  | [corePre] => parseSemverCore corePre []
  | [corePre, metaCs] =>
    if (splitOnChar '.' metaCs).all validMetaSegment then
      parseSemverCore corePre metaCs
    else none
  | _ => none

/-- Masterminds `comparePrePart`: numeric segments compare numerically,
otherwise byte-wise string comparison (signed numeric prerelease segments,
an exotic corner the library parses via `ParseInt`, are treated as strings
here). -/
def comparePrePart (s o : String) : Int :=
  if s = o then 0
  else if s = "" then (if o ≠ "" then -1 else 1)
  else if o = "" then 1
  else
    match parseDigits s.data, parseDigits o.data with
    | some si, some oi => if si > oi then 1 else -1
    | _, _ => if s > o then 1 else -1

/-- Masterminds `comparePrerelease` loop: compare dot-separated segments
pairwise, padding the shorter side with empty segments. -/
def comparePreLists : List String → List String → Int
  | [], [] => 0
  | s :: srest, [] =>
    let d := comparePrePart s ""
    if d ≠ 0 then d else comparePreLists srest []
  | [], o :: orest =>
    let d := comparePrePart "" o
    if d ≠ 0 then d else comparePreLists [] orest
  | s :: srest, o :: orest =>
    let d := comparePrePart s o
    if d ≠ 0 then d else comparePreLists srest orest

/-- Masterminds `Version.Compare`: major, minor, patch numerically, then
prerelease precedence (absence of prerelease sorts higher); build metadata
is ignored. -/
def semverCompare (v o : SemVer) : Int :=
  if v.major ≠ o.major then (if v.major > o.major then 1 else -1)
  else if v.minor ≠ o.minor then (if v.minor > o.minor then 1 else -1)
  else if v.patch ≠ o.patch then (if v.patch > o.patch then 1 else -1)
  else if v.pre = "" ∧ o.pre = "" then 0
  else if v.pre = "" then 1
  else if o.pre = "" then -1
  else
    comparePreLists ((splitOnChar '.' v.pre.data).map String.mk)
      ((splitOnChar '.' o.pre.data).map String.mk)

/-- `takeNewerVersion` (src/cmd/updater/main.go, github updater part):

```go
func takeNewerVersion(existingVersion, remoteVersion string) (*semver.Version, error) {
    semverExisting, _ := semver.NewVersion(existingVersion)
    semverRemote, err := semver.NewVersion(remoteVersion)
    if err != nil { // soft fail: log and keep the existing version
        return semverExisting, nil
    }
    if semverRemote.Compare(semverExisting) < 0 {
        return semverExisting, nil
    } else {
        return semverRemote, nil
    }
}
```

The Go function returns a possibly-nil `*semver.Version`, hence the inner
`Option`; when the existing version fails to parse but the remote parses,
`Compare` dereferences a nil pointer and panics — modelled as the outer
`none`. -/
def takeNewerVersion (existingVersion remoteVersion : String) : Option (Option SemVer) :=
  let semverExisting := parseSemver existingVersion
  match parseSemver remoteVersion with
  | none => some semverExisting
  | some semverRemote =>
    match semverExisting with
    | none => none
    | some e =>
      if semverCompare semverRemote e < 0 then some (some e)
      else some (some semverRemote)

/-- C2 counterexample: at the numeric tie `existing = "1.2.0"` vs
`remote = "1.2.0+build"` (`Compare` ignores build metadata, so the two
versions are numerically equal) the resolver returns the REMOTE version
object — observably different from the existing one, since Masterminds
`String()` prints the build metadata — contradicting "ties resolved in
favor of the existing recorded version, never the remote one". -/
theorem takeNewerVersion_tie_counterexample :
    parseSemver "1.2.0" = some ⟨1, 2, 0, "", ""⟩ ∧
    parseSemver "1.2.0+build" = some ⟨1, 2, 0, "", "build"⟩ ∧
    semverCompare ⟨1, 2, 0, "", "build"⟩ ⟨1, 2, 0, "", ""⟩ = 0 ∧
    takeNewerVersion "1.2.0" "1.2.0+build" = some (some ⟨1, 2, 0, "", "build"⟩) ∧
    (⟨1, 2, 0, "", "build"⟩ : SemVer) ≠ ⟨1, 2, 0, "", ""⟩ :=
  ⟨rfl, rfl, rfl, rfl, by decide⟩

/-- C2 (amended): for every existing version string that parses, the
resolver returns the existing version unchanged when the remote tag does
not parse (soft fail, never an error), the existing version when the remote
compares strictly below it, and the REMOTE version object when the remote
compares greater than or numerically equal to it (ties favor the remote
object, which is numerically equal but may differ in build metadata).  The
claim's three concrete examples hold. -/
theorem takeNewerVersion_spec (ex rm : String) (e : SemVer)
    (he : parseSemver ex = some e) :
    (parseSemver rm = none → takeNewerVersion ex rm = some (some e)) ∧
    (∀ r, parseSemver rm = some r → semverCompare r e < 0 →
      takeNewerVersion ex rm = some (some e)) ∧
    (∀ r, parseSemver rm = some r → 0 ≤ semverCompare r e →
      takeNewerVersion ex rm = some (some r)) ∧
    takeNewerVersion "1.2.0" "1.3.0" = some (some ⟨1, 3, 0, "", ""⟩) ∧
    takeNewerVersion "1.2.0" "not-semver" = some (some ⟨1, 2, 0, "", ""⟩) ∧
    takeNewerVersion "2.0.0" "1.9.0" = some (some ⟨2, 0, 0, "", ""⟩) := by
  refine ⟨?_, ?_, ?_, rfl, rfl, rfl⟩
  · intro hrm
    simp [takeNewerVersion, hrm, he]
  · intro r hrm hlt
    simp [takeNewerVersion, hrm, he, hlt]
  · intro r hrm hge
    have : ¬ semverCompare r e < 0 := by omega
    simp [takeNewerVersion, hrm, he, this]

/-- C2 witness: the soft-fail path evaluated at the concrete pair
`("1.2.0", "not-semver")`. -/
theorem takeNewerVersion_spec_witness :
    parseSemver "1.2.0" = some ⟨1, 2, 0, "", ""⟩ ∧
    takeNewerVersion "1.2.0" "not-semver" = some (some ⟨1, 2, 0, "", ""⟩) :=
  ⟨rfl, (takeNewerVersion_spec "1.2.0" "not-semver" ⟨1, 2, 0, "", ""⟩ rfl).1 rfl⟩

/-- Go's `\s` character class: `[\t\n\f\r ]`. -/
def goWhitespace (c : Char) : Bool :=
  c = ' ' || c = '\t' || c = '\n' || c = '\x0c' || c = '\r'

/-- Expect the literal `.Values.` and return the remainder. -/
def dropDotValues : List Char → Option (List Char)
  | '.' :: 'V' :: 'a' :: 'l' :: 'u' :: 'e' :: 's' :: '.' :: rest => some rest
  | _ => none

/-- Scan for the earliest `}}` (the lazy `.*?\}\}` tail of the regex, where
`.` does not match a newline); return what follows it. -/
def findCloseBraces : List Char → Option (List Char)
  | '}' :: '}' :: rest => some rest
  | c :: rest => if c = '\n' then none else findCloseBraces rest
  | [] => none

/-- Try to match `common.ValuesRegex`, i.e.
`\{\{\s*\.Values\.([^\s\}]+).*?\}\}`, at the start of the input; on success
return the capture group (the dotted path after `.Values.`) and the rest of
the input after the match. -/
def matchValuesRefAt (cs : List Char) : Option (List Char × List Char) :=
  match cs with
  | '{' :: '{' :: rest =>
    let rest1 := rest.dropWhile goWhitespace
    match dropDotValues rest1 with
    | none => none
    | some rest2 =>
      let cap := rest2.takeWhile (fun c => !goWhitespace c && c ≠ '}')
      if cap.isEmpty then none
      else
        match findCloseBraces (rest2.dropWhile (fun c => !goWhitespace c && c ≠ '}')) with
        | some rest3 => some (cap, rest3)
        | none => none
  | _ => none

/-- Leftmost, non-overlapping scan of the whole input (the fuel is the
input length; every step consumes at least one character). -/
def findValuesRefsAux : Nat → List Char → List String
  | 0, _ => []
  | _, [] => []
  | fuel + 1, c :: tail =>
    match matchValuesRefAt (c :: tail) with
    | some (cap, rest) => String.mk cap :: findValuesRefsAux fuel rest
    | none => findValuesRefsAux fuel tail

/-- `common.ValuesRegexCompiled.FindAllStringSubmatch(expression, -1)`
projected to the capture group of each match, in left-to-right order. -/
def findValuesRefs (s : String) : List String :=
  findValuesRefsAux s.data.length s.data

/-- `common.Modification` (src/internal/common/api.go).  `valuesSelector`
is `none` for a nil Go slice (the code tests `mod.ValuesSelector != nil`;
an empty but non-nil slice enters the block yet selects nothing). -/
structure Modification where
  expression : String
  valuesSelector : Option (List String)
  kind : String
  reject : String

/-- The external regexp engine for user-supplied kind patterns: `compile`
returns `none` exactly when Go's `regexp.Compile` fails, otherwise the
compiled pattern's `MatchString` predicate. -/
structure RegexEngine where
  compile : String → Option (String → Bool)

/-- The external yq evaluator (`yqlib.Evaluator.EvaluateNodes`), following
the repository design note that path-expression evaluation is an external
collaborator: given an expression and the current document node it returns
the matched result nodes together with the (possibly mutated, for update
expressions) document node, or an error. -/
structure Evaluator where
  eval : String → Val → Except String (List Val × Val)

/-- Outcome of a Go call: a normal result, a returned `error`, or a runtime
panic (a panic is not returned to the caller — it crashes the process). -/
inductive Outcome (α : Type) where
  | ok : α → Outcome α
  | err : String → Outcome α
  | crash : String → Outcome α
deriving Repr, DecidableEq

def Outcome.isOk {α : Type} : Outcome α → Bool
  | .ok _ => true
  | _ => false

def Outcome.isCrash {α : Type} : Outcome α → Bool
  | .crash _ => true
  | _ => false

/-- `(*manifest)[common.Kind].(string)` with comma-ok: the manifest's kind,
when present and a string. -/
def docKind (manifest : Doc) : Option String :=
  match alookup manifest "kind" with
  | some (Val.str s) => some s
  | _ => none

/-- `wrapResult` (src/internal/packager/packager.go:187-215): requires
exactly one yq result node, decodes it (modelled as the node itself; the Go
code round-trips through the external YAML printer), maps a null value to
an empty mapping, and otherwise nests the value under the dot-separated
segments of `underPath`, outermost segment first. -/
def wrapResult (result : List Val) (underPath : String) : Outcome Doc :=
  match result with
  | [v] =>
    match v with
    | Val.null => .ok []
    | _ =>
      let path := splitOnChar '.' underPath.data
      match path.foldr (fun seg acc => Val.map [(String.mk seg, acc)]) v with
      | Val.map m => .ok m
      | _ => .err "wrapped value is not a map"
  | _ => .err "yq result does not contain exactly one element"

/-- The kind gate of `applyModifications` (packager.go:123-133): `.ok true`
is "proceed", `.ok false` is `continue` (skip this rule), `.err` is the
fatal malformed-pattern error.  The kind is read from the ORIGINAL
manifest; a missing or non-string kind skips the rule. -/
def kindGate (re : RegexEngine) (manifest : Doc) (mod : Modification) : Outcome Bool :=
  if mod.kind = "" then .ok true
  else
    match re.compile mod.kind with
    | none => .err ("failed to compile kind regex " ++ mod.kind)
    | some matchString =>
      match docKind manifest with
      | none => .ok false
      | some kind => .ok (matchString kind)

/-- The reject gate (packager.go:135-146): skips the rule when the kind is
present, a string, and matches the reject pattern; a malformed pattern is a
fatal error even when the kind is absent. -/
def rejectGate (re : RegexEngine) (manifest : Doc) (mod : Modification) : Outcome Bool :=
  if mod.reject = "" then .ok true
  else
    match re.compile mod.reject with
    | none => .err ("failed to compile reject regex " ++ mod.reject)
    | some matchString =>
      match docKind manifest with
      | none => .ok true
      | some kind => .ok (!matchString kind)

/-- The generic decode of the mutation expression's result into
`*map[string]any` (`resultToMap`): modelled as requiring one mapping-valued
result node; anything else fails the decode. -/
def resultToMap (result : List Val) : Outcome Doc :=
  match result with
  | [Val.map m] => .ok m
  | _ => .err "failed to decode result into map"

/-- The `for i, sel := range mod.ValuesSelector` loop of
`applyModifications` (packager.go:148-168).  `matches` is the capture-group
list of `FindAllStringSubmatch`.  The guard in the source is
`len(matches) >= 1` — NOT `len(matches) > i` — so with at least one
placeholder but fewer placeholders than selectors, `matches[i]` is an
index-out-of-range panic; with zero placeholders the loop returns the
"no value path found" error. -/
def selectorLoop (ev : Evaluator) (matchCaps : List String) (expression : String) :
    List String → Nat → Val → Doc → Outcome (Val × Doc)
  | [], _, node, extracted => .ok (node, extracted)
  | sel :: rest, i, node, extracted =>
    match ev.eval sel node with
    | .error e => .err e
    | .ok (vals, node') =>
      if matchCaps.length ≥ 1 then
        match matchCaps[i]? with
        | none => .crash "runtime error: index out of range"
        | some cap =>
          match wrapResult vals cap with
          | .ok valuesMap =>
            selectorLoop ev matchCaps expression rest (i + 1) node'
              (deepMerge extracted valuesMap)
          | .err e => .err e
          | .crash e => .crash e
      else .err ("no value path found in expression " ++ expression)

/-- The rule loop of `applyModifications` (packager.go:122-181), carrying
the mutable `candidNode`, `modifiedManifest` and `extractedValues`. -/
def applyModsLoop (re : RegexEngine) (ev : Evaluator) (manifest : Doc) :
    List Modification → Val → Doc → Doc → Outcome (Doc × Doc)
  | [], _, modifiedManifest, extractedValues => .ok (modifiedManifest, extractedValues)
  | mod :: rest, node, modifiedManifest, extractedValues =>
    match kindGate re manifest mod with
    | .err e => .err e
    | .crash e => .crash e
    | .ok false => applyModsLoop re ev manifest rest node modifiedManifest extractedValues
    | .ok true =>
      match rejectGate re manifest mod with
      | .err e => .err e
      | .crash e => .crash e
      | .ok false => applyModsLoop re ev manifest rest node modifiedManifest extractedValues
      | .ok true =>
        match
          (match mod.valuesSelector with
           | none => Outcome.ok (node, extractedValues)
           | some sels =>
             selectorLoop ev (findValuesRefs mod.expression) mod.expression
               sels 0 node extractedValues) with
        | .err e => .err e
        | .crash e => .crash e
        | .ok (node1, extracted1) =>
          match ev.eval mod.expression node1 with
          | .error e => .err e
          | .ok (results, node2) =>
            match resultToMap results with
            | .err e => .err e
            | .crash e => .crash e
            | .ok newManifest => applyModsLoop re ev manifest rest node2 newManifest extracted1

/-- `applyModifications` (packager.go:99-185): the manifest is marshalled
and decoded once into `candidNode` (modelled as the identity embedding
`Val.map manifest`; the round-trip through the external YAML library is
not modelled), then the rule loop runs with an empty extracted overlay. -/
def applyModifications (re : RegexEngine) (ev : Evaluator) (manifest : Doc)
    (mods : List Modification) : Outcome (Doc × Doc) :=
  applyModsLoop re ev manifest mods (Val.map manifest) manifest []

/-- `common.Manifests` (src/internal/common/api.go). -/
structure Manifests where
  crds : List Doc
  manifests : List Doc
  version : SemVer
  appVersion : String
  values : Doc
  crdsValues : Doc

/-- ASCII lowercasing, the model of Go's `strings.ToLower` on the ASCII
kind names that occur in manifests. -/
def lowerString (s : String) : String :=
  String.mk (s.data.map Char.toLower)

/-- The keep/drop loop of `FilterManifests`: a document is dropped exactly
when its kind is a string whose lowercasing is in the denied set; `acc`
mirrors the `filteredManifests` append accumulator. -/
def filterLoop (deniedKinds : List String) : List Doc → List Doc → List Doc
  | acc, [] => acc
  | acc, m :: rest =>
    match docKind m with
    | some kind =>
      if deniedKinds.contains (lowerString kind) then filterLoop deniedKinds acc rest
      else filterLoop deniedKinds (acc ++ [m]) rest
    | none => filterLoop deniedKinds (acc ++ [m]) rest

/-- `FilterManifests` (packager.go:39-61): lowercases the deny list into a
set, filters the ordinary manifests, and copies every other field. -/
def filterManifests (manifests : Manifests) (denyKindFilter : List String) : Manifests :=
  let deniedKinds := denyKindFilter.map lowerString
  { crds := manifests.crds
    manifests := filterLoop deniedKinds [] manifests.manifests
    version := manifests.version
    appVersion := manifests.appVersion
    values := manifests.values
    crdsValues := manifests.crdsValues }

/-- The per-document loop of `ParametrizeManifests` over one document list,
accumulating the modified documents and deep-merging each document's
extracted overlay into the running overlay; the first failure aborts
("not continuing on error"). -/
def parametrizeLoop (re : RegexEngine) (ev : Evaluator) (mods : List Modification) :
    List Doc → List Doc → Doc → Outcome (List Doc × Doc)
  | [], acc, vals => .ok (acc, vals)
  | d :: rest, acc, vals =>
    match applyModifications re ev d mods with
    | .err e => .err e
    | .crash e => .crash e
    | .ok (m, v) => parametrizeLoop re ev mods rest (acc ++ [m]) (deepMerge vals v)

/-- `ParametrizeManifests` (packager.go:65-97): applies the rule list to
every ordinary manifest and then to every CRD; any failure returns the
error with a nil result (the `err` constructor carries no manifest set). -/
def parametrizeManifests (re : RegexEngine) (ev : Evaluator) (manifests : Manifests)
    (mods : List Modification) : Outcome Manifests :=
  match parametrizeLoop re ev mods manifests.manifests [] manifests.values with
  | .err e => .err e
  | .crash e => .crash e
  | .ok (modifiedManifests, extractedValues) =>
    match parametrizeLoop re ev mods manifests.crds [] manifests.crdsValues with
    | .err e => .err e
    | .crash e => .crash e
    | .ok (modifiedCrds, extractedCrdValues) =>
      .ok { crds := modifiedCrds
            manifests := modifiedManifests
            version := manifests.version
            appVersion := manifests.appVersion
            values := extractedValues
            crdsValues := extractedCrdValues }

/-- A concrete regexp engine for witnesses: every pattern compiles, and a
pattern matches exactly the strings equal to it. -/
def litRegexEngine : RegexEngine := ⟨fun p => some (fun s => s == p)⟩

/-- A concrete regexp engine for witnesses on which every pattern is
malformed. -/
def failRegexEngine : RegexEngine := ⟨fun _ => none⟩

/-- A concrete evaluator for witnesses: every expression evaluates to one
string result node and leaves the document node unchanged. -/
def constEvaluator : Evaluator := ⟨fun _ v => .ok ([Val.str "val"], v)⟩

/-- A concrete evaluator for witnesses whose every evaluation yields two
result nodes. -/
def twoResultEvaluator : Evaluator := ⟨fun _ v => .ok ([Val.str "a", Val.str "b"], v)⟩

/-- C3 (the code violates the claim): on a rule declaring two
value-selector paths whose expression contains exactly ONE placeholder
reference, the guard `len(matches) >= 1` passes and `matches[1]` is an
index-out-of-range panic — `applyModifications` crashes instead of
returning an error on a placeholder/selector count mismatch.  The claim's
other violation cases do return the stated errors, also evaluated here:
zero placeholder references yield the fatal "no value path found" error,
and a selector evaluating to two nodes yields the fatal "not exactly one
element" error. -/
theorem applyModifications_mismatch_crash :
    findValuesRefs ".spec.a |= \"{{ .Values.a }}\"" = ["a"] ∧
    applyModifications litRegexEngine constEvaluator [("kind", Val.str "KubeVirt")]
      [{ expression := ".spec.a |= \"{{ .Values.a }}\""
         valuesSelector := some [".spec.a", ".spec.b"]
         kind := ""
         reject := "" }] = .crash "runtime error: index out of range" ∧
    applyModifications litRegexEngine constEvaluator [("kind", Val.str "KubeVirt")]
      [{ expression := ".spec.a |= \"x\""
         valuesSelector := some [".spec.a"]
         kind := ""
         reject := "" }] = .err "no value path found in expression .spec.a |= \"x\"" ∧
    applyModifications litRegexEngine twoResultEvaluator [("kind", Val.str "KubeVirt")]
      [{ expression := ".spec.a |= \"{{ .Values.a }}\""
         valuesSelector := some [".spec.a"]
         kind := ""
         reject := "" }] = .err "yq result does not contain exactly one element" :=
  ⟨rfl, rfl, rfl, rfl⟩

/-- C7: a null matched value wraps to an EMPTY MAPPING, not a literal null,
and deep-merging the resulting empty fragment leaves the overlay pointwise
unchanged — the overlay never stores null at the placeholder's dotted path
for such an extraction. -/
theorem wrapResult_null (underPath : String) (extracted : Doc) :
    wrapResult [Val.null] underPath = .ok [] ∧
    deepMerge extracted [] = extracted :=
  ⟨rfl, by simp [deepMerge]⟩

/-- C5: a reached rule whose kind pattern does not match the document's
kind (or is missing a string kind), or whose reject pattern matches it, is
skipped entirely — the loop continues on the remaining rules with the
document node, modified manifest and extracted overlay untouched — while a
malformed (non-compiling) kind pattern on a reached rule aborts the whole
document's rule application with an immediate error, never a silent skip.
-/
theorem rule_skip_and_malformed_pattern (re : RegexEngine) (ev : Evaluator)
    (manifest : Doc) (mod : Modification) (rest : List Modification)
    (node : Val) (modified extracted : Doc) :
    (∀ f, mod.kind ≠ "" → re.compile mod.kind = some f →
      (∀ k, docKind manifest = some k → f k = false) →
      applyModsLoop re ev manifest (mod :: rest) node modified extracted =
        applyModsLoop re ev manifest rest node modified extracted) ∧
    (∀ g k, kindGate re manifest mod = .ok true →
      mod.reject ≠ "" → re.compile mod.reject = some g →
      docKind manifest = some k → g k = true →
      applyModsLoop re ev manifest (mod :: rest) node modified extracted =
        applyModsLoop re ev manifest rest node modified extracted) ∧
    (mod.kind ≠ "" → re.compile mod.kind = none →
      applyModsLoop re ev manifest (mod :: rest) node modified extracted =
        .err ("failed to compile kind regex " ++ mod.kind)) := by
  refine ⟨?_, ?_, ?_⟩
  · intro f hk hcmp hfk
    have hgate : kindGate re manifest mod = .ok false := by
      unfold kindGate
      rw [if_neg hk, hcmp]
      cases hdoc : docKind manifest with
      | none => rfl
      | some k => simp [hfk k hdoc]
    simp [applyModsLoop, hgate]
  · intro g k hkind hr hcmp hdoc hgk
    have hgate : rejectGate re manifest mod = .ok false := by
      unfold rejectGate
      rw [if_neg hr, hcmp, hdoc]
      simp [hgk]
    simp [applyModsLoop, hkind, hgate]
  · intro hk hcmp
    have hgate : kindGate re manifest mod =
        .err ("failed to compile kind regex " ++ mod.kind) := by
      unfold kindGate
      rw [if_neg hk, hcmp]
    simp [applyModsLoop, hgate]

/-- C5 witness: a rule whose kind pattern `"Other"` does not match the
document kind `"KubeVirt"` is skipped, leaving the remaining (empty) rule
list to run on unchanged state. -/
theorem rule_skip_and_malformed_pattern_witness :
    applyModsLoop litRegexEngine constEvaluator [("kind", Val.str "KubeVirt")]
      [{ expression := "e", valuesSelector := none, kind := "Other", reject := "" }]
      (Val.map [("kind", Val.str "KubeVirt")]) [("kind", Val.str "KubeVirt")] [] =
    applyModsLoop litRegexEngine constEvaluator [("kind", Val.str "KubeVirt")] []
      (Val.map [("kind", Val.str "KubeVirt")]) [("kind", Val.str "KubeVirt")] [] :=
  (rule_skip_and_malformed_pattern litRegexEngine constEvaluator
      [("kind", Val.str "KubeVirt")]
      { expression := "e", valuesSelector := none, kind := "Other", reject := "" }
      [] (Val.map [("kind", Val.str "KubeVirt")]) [("kind", Val.str "KubeVirt")] []).1
    (fun s => s == "Other") (by decide) rfl
    (fun k hk => by
      have hkk : k = "KubeVirt" := by
        simpa [docKind, alookup] using hk.symm
      subst hkk
      decide)

theorem parametrizeLoop_isOk (re : RegexEngine) (ev : Evaluator)
    (mods : List Modification) : ∀ (ds acc : List Doc) (vals : Doc),
    (parametrizeLoop re ev mods ds acc vals).isOk = true ↔
      ∀ d ∈ ds, (applyModifications re ev d mods).isOk = true := by
  intro ds
  induction ds with
  | nil =>
    intro acc vals
    simp [parametrizeLoop, Outcome.isOk]
  | cons d rest ih =>
    intro acc vals
    cases h : applyModifications re ev d mods with
    | ok p =>
      obtain ⟨m, v⟩ := p
      simp only [parametrizeLoop, h, List.mem_cons]
      rw [ih]
      constructor
      · intro hall d' hd'
        rcases hd' with hd' | hd'
        · subst hd'; rw [h]; rfl
        · exact hall d' hd'
      · intro hall d' hd'
        exact hall d' (Or.inr hd')
    | err e =>
      simp only [parametrizeLoop, h]
      constructor
      · intro hh; cases hh
      · intro hall
        have hd := hall d (List.mem_cons_self _ _)
        rw [h] at hd
        cases hd
    | crash e =>
      simp only [parametrizeLoop, h]
      constructor
      · intro hh; cases hh
      · intro hall
        have hd := hall d (List.mem_cons_self _ _)
        rw [h] at hd
        cases hd

theorem parametrizeLoop_err_of (re : RegexEngine) (ev : Evaluator)
    (mods : List Modification) : ∀ (ds acc : List Doc) (vals : Doc),
    (∀ d ∈ ds, (applyModifications re ev d mods).isCrash = false) →
    (parametrizeLoop re ev mods ds acc vals).isOk = false →
    ∃ e, parametrizeLoop re ev mods ds acc vals = .err e := by
  intro ds
  induction ds with
  | nil =>
    intro acc vals _ hok
    simp [parametrizeLoop, Outcome.isOk] at hok
  | cons d rest ih =>
    intro acc vals hnc hok
    cases h : applyModifications re ev d mods with
    | ok p =>
      obtain ⟨m, v⟩ := p
      rw [parametrizeLoop, h] at hok ⊢
      exact ih _ _ (fun d' hd' => hnc d' (List.mem_cons_of_mem _ hd')) hok
    | err e =>
      refine ⟨e, ?_⟩
      rw [parametrizeLoop, h]
    | crash e =>
      have := hnc d (List.mem_cons_self _ _)
      rw [h] at this
      cases this

/-- C6: `ParametrizeManifests` is atomic — its result is a success exactly
when the rule application succeeds on every ordinary manifest and every
CRD, and whenever it is not a success but no document's rule application
panics, it returns an error (the `err` constructor carries no manifest set:
no partially transformed manifests and no partially accumulated overlay is
ever returned). -/
theorem parametrize_atomic (re : RegexEngine) (ev : Evaluator) (M : Manifests)
    (mods : List Modification) :
    ((parametrizeManifests re ev M mods).isOk = true ↔
      ((∀ d ∈ M.manifests, (applyModifications re ev d mods).isOk = true) ∧
       (∀ d ∈ M.crds, (applyModifications re ev d mods).isOk = true))) ∧
    ((∀ d ∈ M.manifests, (applyModifications re ev d mods).isCrash = false) →
     (∀ d ∈ M.crds, (applyModifications re ev d mods).isCrash = false) →
     (parametrizeManifests re ev M mods).isOk = false →
     ∃ e, parametrizeManifests re ev M mods = .err e) := by
  constructor
  · cases h1 : parametrizeLoop re ev mods M.manifests [] M.values with
    | ok p1 =>
      obtain ⟨mm, vv⟩ := p1
      cases h2 : parametrizeLoop re ev mods M.crds [] M.crdsValues with
      | ok p2 =>
        obtain ⟨cc, cv⟩ := p2
        have hm := (parametrizeLoop_isOk re ev mods M.manifests [] M.values).symm
        have hc := (parametrizeLoop_isOk re ev mods M.crds [] M.crdsValues).symm
        rw [h1] at hm
        rw [h2] at hc
        simp only [parametrizeManifests, h1, h2, Outcome.isOk]
        constructor
        · intro _
          exact ⟨hm.mpr rfl, hc.mpr rfl⟩
        · intro _; trivial
      | err e =>
        simp only [parametrizeManifests, h1, h2, Outcome.isOk]
        constructor
        · intro hh; cases hh
        · intro hall
          have := (parametrizeLoop_isOk re ev mods M.crds [] M.crdsValues).mpr hall.2
          rw [h2] at this
          cases this
      | crash e =>
        simp only [parametrizeManifests, h1, h2, Outcome.isOk]
        constructor
        · intro hh; cases hh
        · intro hall
          have := (parametrizeLoop_isOk re ev mods M.crds [] M.crdsValues).mpr hall.2
          rw [h2] at this
          cases this
    | err e =>
      simp only [parametrizeManifests, h1, Outcome.isOk]
      constructor
      · intro hh; cases hh
      · intro hall
        have := (parametrizeLoop_isOk re ev mods M.manifests [] M.values).mpr hall.1
        rw [h1] at this
        cases this
    | crash e =>
      simp only [parametrizeManifests, h1, Outcome.isOk]
      constructor
      · intro hh; cases hh
      · intro hall
        have := (parametrizeLoop_isOk re ev mods M.manifests [] M.values).mpr hall.1
        rw [h1] at this
        cases this
  · intro hnc1 hnc2 hok
    cases h1 : parametrizeLoop re ev mods M.manifests [] M.values with
    | ok p1 =>
      obtain ⟨mm, vv⟩ := p1
      cases h2 : parametrizeLoop re ev mods M.crds [] M.crdsValues with
      | ok p2 =>
        obtain ⟨cc, cv⟩ := p2
        rw [parametrizeManifests, h1, h2] at hok
        cases hok
      | err e =>
        refine ⟨e, ?_⟩
        rw [parametrizeManifests, h1, h2]
      | crash e =>
        obtain ⟨e', he'⟩ := parametrizeLoop_err_of re ev mods M.crds [] M.crdsValues hnc2
          (by rw [h2]; rfl)
        rw [h2] at he'
        cases he'
    | err e =>
      refine ⟨e, ?_⟩
      rw [parametrizeManifests, h1]
    | crash e =>
      obtain ⟨e', he'⟩ := parametrizeLoop_err_of re ev mods M.manifests [] M.values hnc1
        (by rw [h1]; rfl)
      rw [h1] at he'
      cases he'

/-- A one-manifest release for witnesses. -/
def sampleManifests : Manifests :=
  { crds := []
    manifests := [[("kind", Val.str "KubeVirt")]]
    version := ⟨1, 0, 0, "", ""⟩
    appVersion := "v1.0.0"
    values := []
    crdsValues := [] }

/-- A rule whose kind pattern is malformed under `failRegexEngine`. -/
def badKindMod : Modification :=
  { expression := "e", valuesSelector := none, kind := "(", reject := "" }

/-- C6 witness: a release with one manifest whose rule application fails (a
malformed kind pattern) makes `ParametrizeManifests` return an error. -/
theorem parametrize_atomic_witness :
    ∃ e, parametrizeManifests failRegexEngine constEvaluator sampleManifests
      [badKindMod] = .err e :=
  (parametrize_atomic failRegexEngine constEvaluator sampleManifests [badKindMod]).2
    (fun d hd => by
      simp only [sampleManifests] at hd
      rw [List.mem_singleton] at hd
      subst hd
      rfl)
    (fun d hd => by cases hd)
    rfl

/-- The claim's exclusion predicate: the document's kind, compared
case-insensitively, appears in the exclusion list (a document without a
string kind is excluded by nothing). -/
def excludedBy (denyKindFilter : List String) (m : Doc) : Bool :=
  match docKind m with
  | some kind => (denyKindFilter.map lowerString).contains (lowerString kind)
  | none => false

theorem filterLoop_eq (deny : List String) : ∀ (ds acc : List Doc),
    filterLoop (deny.map lowerString) acc ds =
      acc ++ ds.filter (fun m => !excludedBy deny m) := by
  intro ds
  induction ds with
  | nil => intro acc; simp [filterLoop]
  | cons m rest ih =>
    intro acc
    rw [List.filter_cons]
    cases hdk : docKind m with
    | none =>
      have hex : (!excludedBy deny m) = true := by
        simp only [excludedBy, hdk]
        rfl
      rw [if_pos hex]
      simp only [filterLoop, hdk]
      rw [ih (acc ++ [m])]
      simp
    | some kind =>
      cases hc : (List.map lowerString deny).contains (lowerString kind) with
      | true =>
        have hex : (!excludedBy deny m) = false := by
          simp only [excludedBy, hdk, hc, Bool.not_true]
        rw [if_neg (by rw [hex]; decide)]
        simp only [filterLoop, hdk]
        rw [if_pos hc]
        exact ih acc
      | false =>
        have hex : (!excludedBy deny m) = true := by
          simp only [excludedBy, hdk, hc, Bool.not_false]
        rw [if_pos hex]
        simp only [filterLoop, hdk]
        rw [if_neg (by rw [hc]; decide)]
        rw [ih (acc ++ [m])]
        simp

theorem filterManifests_manifests_eq (M : Manifests) (deny : List String) :
    (filterManifests M deny).manifests =
      M.manifests.filter (fun m => !excludedBy deny m) := by
  simp [filterManifests, filterLoop_eq]

theorem length_filter_not_eq (ds : List Doc) (p : Doc → Bool) :
    (ds.filter (fun m => !p m)).length = ds.length - (ds.filter p).length := by
  induction ds with
  | nil => simp
  | cons d rest ih =>
    have hle := List.length_filter_le p rest
    by_cases h : p d
    · simp [List.filter_cons, h, ih]
    · simp [List.filter_cons, h, ih]
      omega

/-- C4: `FilterManifests` removes exactly the documents whose kind,
compared case-insensitively, appears in the exclusion list: the surviving
list is the input filtered by the claim's exclusion predicate, hence a
sublist of the input (survivors keep their relative order), and its length
is the input length minus the number of excluded documents. -/
theorem filterManifests_spec (M : Manifests) (deny : List String) :
    (filterManifests M deny).manifests =
      M.manifests.filter (fun m => !excludedBy deny m) ∧
    List.Sublist (filterManifests M deny).manifests M.manifests ∧
    (filterManifests M deny).manifests.length =
      M.manifests.length - (M.manifests.filter (fun m => excludedBy deny m)).length := by
  refine ⟨filterManifests_manifests_eq M deny, ?_, ?_⟩
  · rw [filterManifests_manifests_eq M deny]
    exact List.filter_sublist _
  · rw [filterManifests_manifests_eq M deny]
    exact length_filter_not_eq _ _

/-- C10: `FilterManifests` changes only the ordinary-manifest list — the
CRD list, version, app version and both pre-seeded overlays are returned
exactly as given (schema-definition documents are never removed by the
exclusion list) — and a document whose kind is missing or not a string is
always kept, regardless of the exclusion list. -/
theorem filterManifests_frame (M : Manifests) (deny : List String) :
    (filterManifests M deny).crds = M.crds ∧
    (filterManifests M deny).version = M.version ∧
    (filterManifests M deny).appVersion = M.appVersion ∧
    (filterManifests M deny).values = M.values ∧
    (filterManifests M deny).crdsValues = M.crdsValues ∧
    (∀ m ∈ M.manifests, docKind m = none →
      m ∈ (filterManifests M deny).manifests) := by
  refine ⟨rfl, rfl, rfl, rfl, rfl, ?_⟩
  intro m hm hdk
  rw [filterManifests_manifests_eq M deny]
  rw [List.mem_filter]
  exact ⟨hm, by simp [excludedBy, hdk]⟩

/-- C10 witness: a document without a kind field survives filtering in a
release whose exclusion list would drop its sibling. -/
theorem filterManifests_frame_witness :
    [("x", Val.int 1)] ∈ (filterManifests
      { crds := [[("kind", Val.str "CustomResourceDefinition")]]
        manifests := [[("x", Val.int 1)], [("kind", Val.str "KubeVirt")]]
        version := ⟨1, 0, 0, "", ""⟩
        appVersion := "v1.0.0"
        values := []
        crdsValues := [] } ["kubevirt"]).manifests :=
  (filterManifests_frame
      { crds := [[("kind", Val.str "CustomResourceDefinition")]]
        manifests := [[("x", Val.int 1)], [("kind", Val.str "KubeVirt")]]
        version := ⟨1, 0, 0, "", ""⟩
        appVersion := "v1.0.0"
        values := []
        crdsValues := [] } ["kubevirt"]).2.2.2.2.2
    [("x", Val.int 1)] (List.mem_cons_self _ _) rfl

/-- Scan for the earliest `}}` followed by the quote character `q` (the
lazy `.*?` of the quote-stripping regex, with `.` not matching a newline);
return the consumed middle and what follows the closing quote. -/
def scanCloseAux (q : Char) : Nat → List Char → Option (List Char × List Char)
  | fuel + 1, '}' :: '}' :: c :: rest =>
    if c = q then some ([], rest)
    else (scanCloseAux q fuel ('}' :: c :: rest)).map (fun p => ('}' :: p.1, p.2))
  | fuel + 1, c :: rest =>
    if c = '\n' then none
    else (scanCloseAux q fuel rest).map (fun p => (c :: p.1, p.2))
  | _, _ => none

/-- The post-serialization fixup of `createTemplates`
(src/cmd/updater/main.go, packager part):
`regexp.MustCompile`(backtick)`'(\{\{.*?\}\})'|"(\{\{.*?\}\})"`(backtick)
with `ReplaceAllFunc` dropping the first and last byte of each match —
i.e. a placeholder expression wrapped in single or double quotes loses the
quotes that would break the Helm template syntax. -/
def stripQuotedAux : Nat → List Char → List Char
  | 0, cs => cs
  | _ + 1, [] => []
  | fuel + 1, c :: rest =>
    if c = '\'' || c = '"' then
      match rest with
      | '{' :: '{' :: body =>
        match scanCloseAux c body.length body with
        | some (mid, rest') =>
          '{' :: '{' :: (mid ++ '}' :: '}' :: stripQuotedAux fuel rest')
        | none => c :: stripQuotedAux fuel rest
      | _ => c :: stripQuotedAux fuel rest
    else c :: stripQuotedAux fuel rest

/-- Apply the quote-stripping regex over a whole serialized manifest. -/
def stripQuotedPlaceholders (s : String) : String :=
  String.mk (stripQuotedAux s.data.length s.data)

/-- `chart.File`: an output template unit (name and concatenated data). -/
structure ChartFile where
  name : String
  data : String
deriving DecidableEq, Repr

/-- The manifest loop of `createTemplates`: serialize each manifest
(`yaml.Marshal` is the external serializer parameter `marshal`), strip the
quotes around placeholder expressions, read the `kind` (a missing or
non-string kind is a fatal error), and either append to the kind's
existing template unit — separated by the `\n---\n` document-boundary
marker — or start a new unit named `templates/<lowercased kind>.yaml`.
The association list mirrors the Go `templates` map plus its insertion
order, which the map itself does not retain. -/
def buildLoop (marshal : Doc → String) :
    List Doc → List (String × ChartFile) → Outcome (List (String × ChartFile))
  | [], templates => .ok templates
  | manifest :: rest, templates =>
    let manifestYAML := stripQuotedPlaceholders (marshal manifest)
    match docKind manifest with
    | none => .err "manifest does not have a valid kind field"
    | some kind =>
      match alookup templates kind with
      | some existingTemplate =>
        buildLoop marshal rest
          (aset templates kind
            { existingTemplate with
              data := existingTemplate.data ++ "\n---\n" ++ manifestYAML })
      | none =>
        buildLoop marshal rest
          (templates ++
            [(kind,
              { name := "templates/" ++ lowerString kind ++ ".yaml"
                data := manifestYAML })])

/-- `createTemplates` (src/cmd/updater/main.go, packager part, lines
320-359): build the per-kind template units, then emit them in the order
of the final `for _, tmpl := range templates` iteration over the Go map —
an order the Go runtime randomizes, which is modelled by the explicit
`iterOrder` parameter (a run of the program corresponds to some
permutation of the map's keys). -/
def createTemplates (marshal : Doc → String) (newManifests : List Doc)
    (iterOrder : List String) : Outcome (List ChartFile) :=
  match buildLoop marshal newManifests [] with
  | .err e => .err e
  | .crash e => .crash e
  | .ok templates => .ok (iterOrder.filterMap (fun k => alookup templates k))

/-- The template unit the claim predicts for kind `k`: the file named after
the case-folded kind holding all of `k`'s documents in input order,
separated by the document-boundary marker. -/
def expectedTemplateFile (marshal : Doc → String) (docs : List Doc) (k : String) :
    ChartFile :=
  { name := "templates/" ++ lowerString k ++ ".yaml"
    data := String.intercalate "\n---\n"
      ((docs.filter (fun d => docKind d == some k)).map
        (fun d => stripQuotedPlaceholders (marshal d))) }

/-- A concrete serializer for witnesses: a document serializes to its kind
(or to the empty string without one). -/
def kindMarshal (d : Doc) : String :=
  match docKind d with
  | some k => k
  | none => ""

theorem keysNodup_iff {α : Type} : ∀ (m : List (String × α)),
    keysNodup m = true ↔ (m.map Prod.fst).Nodup := by
  intro m
  induction m with
  | nil => simp [keysNodup]
  | cons kv rest ih =>
    obtain ⟨k, v⟩ := kv
    simp only [keysNodup, Bool.and_eq_true, Bool.not_eq_true', List.map_cons,
      List.nodup_cons, ih]
    constructor
    · rintro ⟨h1, h2⟩
      refine ⟨?_, h2⟩
      intro hmem
      obtain ⟨p, hp, hpk⟩ := List.mem_map.mp hmem
      have : rest.any (fun q => q.1 == k) = true :=
        List.any_eq_true.mpr ⟨p, hp, by simp [hpk]⟩
      rw [this] at h1
      cases h1
    · rintro ⟨h1, h2⟩
      refine ⟨?_, h2⟩
      cases hany : rest.any (fun q => q.1 == k) with
      | false => rfl
      | true =>
        obtain ⟨p, hp, hpk⟩ := List.any_eq_true.mp hany
        exact absurd (List.mem_map.mpr ⟨p, hp, by simpa using hpk⟩) h1

theorem aset_map_fst_of_alookup {α : Type} : ∀ (m : List (String × α)) (k : String)
    (v w : α), alookup m k = some w → (aset m k v).map Prod.fst = m.map Prod.fst := by
  intro m
  induction m with
  | nil => intro k v w h; cases h
  | cons kv rest ih =>
    obtain ⟨k0, v0⟩ := kv
    intro k v w h
    by_cases hk : k0 = k
    · subst hk
      simp [aset]
    · simp only [alookup, if_neg hk] at h
      simp [aset, hk, ih _ _ _ h]

theorem not_mem_fst_of_alookup_none {α : Type} : ∀ (m : List (String × α)) (k : String),
    alookup m k = none → k ∉ m.map Prod.fst := by
  intro m
  induction m with
  | nil => intro k _; simp
  | cons kv rest ih =>
    obtain ⟨k0, v0⟩ := kv
    intro k h
    by_cases hk : k0 = k
    · simp [alookup, hk] at h
    · simp only [alookup, if_neg hk] at h
      simp only [List.map_cons, List.mem_cons]
      rintro (h1 | h1)
      · exact hk h1.symm
      · exact ih _ h h1

theorem alookup_append_single_ne {α : Type} (m : List (String × α)) (k j : String)
    (v : α) (h : j ≠ k) : alookup (m ++ [(k, v)]) j = alookup m j := by
  cases halo : alookup m j with
  | some w => exact alookup_append_of_some _ _ _ _ halo
  | none =>
    rw [alookup_append_of_none _ _ _ halo]
    simp [alookup, Ne.symm h]

theorem buildLoop_keysNodup (marshal : Doc → String) : ∀ (docs : List Doc)
    (templates tl : List (String × ChartFile)),
    keysNodup templates = true → buildLoop marshal docs templates = .ok tl →
    keysNodup tl = true := by
  intro docs
  induction docs with
  | nil =>
    intro templates tl hnd hok
    simp only [buildLoop] at hok
    cases hok
    exact hnd
  | cons d rest ih =>
    intro templates tl hnd hok
    simp only [buildLoop] at hok
    cases hdk : docKind d with
    | none =>
      simp only [hdk] at hok
      exact Outcome.noConfusion hok
    | some kind =>
      simp only [hdk] at hok
      cases halo : alookup templates kind with
      | some f =>
        simp only [halo] at hok
        refine ih _ _ ?_ hok
        rw [keysNodup_iff] at hnd ⊢
        rw [aset_map_fst_of_alookup _ _ _ _ halo]
        exact hnd
      | none =>
        simp only [halo] at hok
        refine ih _ _ ?_ hok
        rw [keysNodup_iff] at hnd ⊢
        rw [List.map_append]
        refine List.Nodup.append hnd (by simp) ?_
        simp only [List.map_cons, List.map_nil]
        rw [List.disjoint_singleton]
        exact not_mem_fst_of_alookup_none _ _ halo

/-- What `buildLoop` stores for each kind, by induction over the manifests
with a general accumulator: a kind already present in the accumulator keeps
its file name and has the kind's documents appended, each separated by the
document-boundary marker; a fresh kind gets the file named after the
case-folded kind holding its documents likewise separated. -/
theorem buildLoop_alookup (marshal : Doc → String) : ∀ (docs : List Doc)
    (templates tl : List (String × ChartFile)),
    buildLoop marshal docs templates = .ok tl →
    ∀ k, alookup tl k =
      match alookup templates k,
        (docs.filter (fun d => docKind d == some k)).map
          (fun d => stripQuotedPlaceholders (marshal d)) with
      | none, [] => none
      | none, ps => some { name := "templates/" ++ lowerString k ++ ".yaml"
                           data := String.intercalate "\n---\n" ps }
      | some f, ps => some { name := f.name
                             data := String.intercalate "\n---\n" (f.data :: ps) } := by
  intro docs
  induction docs with
  | nil =>
    intro templates tl hok k
    simp only [buildLoop] at hok
    cases hok
    simp only [List.filter_nil, List.map_nil]
    cases halo : alookup templates k with
    | none => rfl
    | some f => rfl
  | cons d rest ih =>
    intro templates tl hok k
    simp only [buildLoop] at hok
    cases hdk : docKind d with
    | none =>
      simp only [hdk] at hok
      exact Outcome.noConfusion hok
    | some kind =>
      simp only [hdk] at hok
      by_cases hkk : kind = k
      · subst hkk
        rw [List.filter_cons, if_pos (by simp [hdk])]
        simp only [List.map_cons]
        cases halo : alookup templates kind with
        | some f =>
          simp only [halo] at hok
          have h2 := ih _ _ hok kind
          rw [h2, alookup_aset_self]
          rfl
        | none =>
          simp only [halo] at hok
          have h2 := ih _ _ hok kind
          rw [h2, alookup_append_of_none _ _ _ halo]
          simp only [alookup, if_true]
      · rw [List.filter_cons, if_neg (by simp [hdk, hkk])]
        cases halo : alookup templates kind with
        | some f =>
          simp only [halo] at hok
          have h2 := ih _ _ hok k
          rw [h2, alookup_aset_ne _ _ _ _ (fun hh => hkk hh.symm)]
        | none =>
          simp only [halo] at hok
          have h2 := ih _ _ hok k
          rw [h2, alookup_append_single_ne _ _ _ _ (fun hh => hkk hh.symm)]

theorem keys_filterMap_alookup {α : Type} : ∀ (tl : List (String × α)),
    keysNodup tl = true →
    (tl.map Prod.fst).filterMap (fun k => alookup tl k) = tl.map Prod.snd := by
  intro tl
  induction tl with
  | nil => intro _; rfl
  | cons kv rest ih =>
    obtain ⟨k, f⟩ := kv
    intro hnd
    simp only [keysNodup, Bool.and_eq_true, Bool.not_eq_true'] at hnd
    obtain ⟨hany, hrest⟩ := hnd
    simp only [List.map_cons, List.filterMap_cons]
    have hself : alookup ((k, f) :: rest) k = some f := by simp [alookup]
    rw [hself]
    have hcong : (rest.map Prod.fst).filterMap (fun j => alookup ((k, f) :: rest) j) =
        (rest.map Prod.fst).filterMap (fun j => alookup rest j) := by
      apply List.filterMap_congr
      intro j hj
      obtain ⟨p, hp, hpj⟩ := List.mem_map.mp hj
      have hne : k ≠ j := by
        intro hh
        subst hh
        have : rest.any (fun q => q.1 == k) = true :=
          List.any_eq_true.mpr ⟨p, hp, by simp [hpj]⟩
        rw [this] at hany
        cases hany
      simp [alookup, hne]
    rw [hcong, ih hrest]

/-- C8 (amended): `createTemplates` groups the documents by their kind
field so that all documents sharing a kind are concatenated into exactly
one template unit (the association keys are distinct), consecutive
documents separated by the `\n---\n` document-boundary marker, and the
unit's file name derived from the case-folded kind.  The SET of template
units is a pure function of the input — two runs over the same input
produce the same units — but the ORDER of the final template list follows
the Go map iteration (the `iterOrder` parameter): every permutation of the
kinds is a possible output order, so the list order is not stable across
runs. -/
theorem createTemplates_grouping (marshal : Doc → String) (docs : List Doc)
    (tl : List (String × ChartFile)) (hok : buildLoop marshal docs [] = .ok tl) :
    keysNodup tl = true ∧
    (∀ k, alookup tl k =
      if (docs.filter (fun d => docKind d == some k)).isEmpty then none
      else some (expectedTemplateFile marshal docs k)) ∧
    (∀ iterOrder, iterOrder.Perm (tl.map Prod.fst) →
      ∃ files, createTemplates marshal docs iterOrder = .ok files ∧
        files.Perm (tl.map Prod.snd)) := by
  refine ⟨buildLoop_keysNodup marshal docs [] tl rfl hok, ?_, ?_⟩
  · intro k
    have h := buildLoop_alookup marshal docs [] tl hok k
    rw [h]
    cases hf : docs.filter (fun d => docKind d == some k) with
    | nil => simp [alookup, hf]
    | cons x xs =>
      simp only [alookup, List.map_cons, expectedTemplateFile, hf, List.isEmpty_cons,
        if_false, Bool.false_eq_true]
  · intro iterOrder hperm
    refine ⟨iterOrder.filterMap (fun k => alookup tl k), ?_, ?_⟩
    · simp [createTemplates, hok]
    · have h1 := hperm.filterMap (fun k => alookup tl k)
      rw [keys_filterMap_alookup tl
        (buildLoop_keysNodup marshal docs [] tl rfl hok)] at h1
      exact h1

/-- C8 witness: three documents of kinds A, B, A grouped into two units
with the document-boundary marker, emitted in the order ["B", "A"] (one of
the possible iteration orders), a permutation of the built units. -/
theorem createTemplates_grouping_witness :
    ∃ files, createTemplates kindMarshal
        [[("kind", Val.str "A")], [("kind", Val.str "B")], [("kind", Val.str "A")]]
        ["B", "A"] = .ok files ∧
      files.Perm ([("A", (⟨"templates/a.yaml", "A\n---\nA"⟩ : ChartFile)),
        ("B", ⟨"templates/b.yaml", "B"⟩)].map Prod.snd) :=
  (createTemplates_grouping kindMarshal
      [[("kind", Val.str "A")], [("kind", Val.str "B")], [("kind", Val.str "A")]]
      [("A", ⟨"templates/a.yaml", "A\n---\nA"⟩), ("B", ⟨"templates/b.yaml", "B"⟩)]
      (by rfl)).2.2 ["B", "A"] (by decide)

/-- C8 counterexample: the claim's determinism part is false — with the
same input, the two map-iteration orders ["A", "B"] and ["B", "A"] (both
permutations of the built kinds, hence both possible runs) produce template
lists in different orders. -/
theorem createTemplates_order_counterexample :
    buildLoop kindMarshal [[("kind", Val.str "A")], [("kind", Val.str "B")]] [] =
      .ok [("A", ⟨"templates/a.yaml", "A"⟩), ("B", ⟨"templates/b.yaml", "B"⟩)] ∧
    List.Perm ["A", "B"] ["A", "B"] ∧
    List.Perm ["B", "A"] ["A", "B"] ∧
    createTemplates kindMarshal [[("kind", Val.str "A")], [("kind", Val.str "B")]]
      ["A", "B"] = .ok [⟨"templates/a.yaml", "A"⟩, ⟨"templates/b.yaml", "B"⟩] ∧
    createTemplates kindMarshal [[("kind", Val.str "A")], [("kind", Val.str "B")]]
      ["B", "A"] = .ok [⟨"templates/b.yaml", "B"⟩, ⟨"templates/a.yaml", "A"⟩] ∧
    Outcome.ok [(⟨"templates/a.yaml", "A"⟩ : ChartFile), ⟨"templates/b.yaml", "B"⟩] ≠
      Outcome.ok [(⟨"templates/b.yaml", "B"⟩ : ChartFile), ⟨"templates/a.yaml", "A"⟩] :=
  ⟨rfl, by decide, by decide, rfl, rfl, by decide⟩
